import Mathlib

/-!
Shallow embedding of `src/hash.c` (repository jayatheerthkulkarni/hash).

The program computes a 64-bit fingerprint of a byte string in four stages:

1. digit packer (`hash`, lines 109-120): fold the bytes of the input into a
   signed 64-bit accumulator, multiplying by 10 / 100 / 1000 per byte;
2. quadratic scrambler (`digit_return`, `pow10ll`, `isqrt`,
   `quadratic_roots`, `quadratic_division`, lines 13-99);
3. finalizer (lines 126-132): MurmurHash3-style multiply/xor-shift cascade
   on `uint64_t`;
4. formatter (lines 134-136): `snprintf "%016llx"` into a 17-byte buffer.

Modelling conventions:

* C `long long` values are modelled as `Int` with exact arithmetic; the
  claims that depend on the numeric range carry explicit `< 2^63`
  hypotheses.  C `/` and `%` on `long long` truncate toward zero, so they
  are modelled by `Int.tdiv` / `Int.tmod`.
* `uint64_t` arithmetic (the finalizer) is modelled on `ℕ` with explicit
  `% 2^64` at every operation that can leave the 64-bit range, and the
  `(uint64_t)` cast of a signed value is `Int.emod · (2^64)` (two's
  complement).
* Bytes of the input string and of the output buffer are modelled as `ℕ`
  (the source reads characters through a `uint8_t` cast and writes `char`s).
* C `while` loops are modelled by structurally recursive functions with an
  explicit fuel argument chosen at each call site to dominate the number of
  iterations the C loop performs; fuel sufficiency is proved in the lemmas
  below, so the model never exhausts fuel on the stated domains.
* The one division of the program whose divisor can be zero is
  `(-b) / (2*a)` in `quadratic_roots` (line 60).  Executing it with `a = 0`
  is undefined behaviour (a trap on mainstream targets), so the embedding
  of `quadratic_roots` returns `Option`: `none` models the trap.  The
  divisions inside `isqrt` are also guarded in a checked variant
  `isqrtChk`, and a theorem below shows they never divide by zero, which
  justifies the unchecked `isqrt` used in the main pipeline.
-/

namespace HashC

/-- Loop body of `digit_return` (src/hash.c lines 17-20): repeatedly divide
by 10, counting steps, until the value is zero.  `fuel ≥ n` dominates the
iteration count. -/
def digit_go (fuel n : ℕ) : ℕ :=
  match fuel with
  | 0 => 0
  | fuel + 1 => if n = 0 then 0 else digit_go fuel (n / 10) + 1

/-- Embedding of `digit_return` (src/hash.c lines 13-22): number of decimal
digits of a positive `long long`, 1 for zero, and 0 for a negative argument
(the `while (num > 0)` loop body never runs then). -/
def digit_return (num : Int) : Int :=
  if num = 0 then 1
  else if 0 < num then (digit_go num.toNat num.toNat : Int)
  else 0

/-- Iterated multiplication by 10, the loop of `pow10ll`. -/
def pow10_go (fuel : ℕ) : Int :=
  match fuel with
  | 0 => 1
  | fuel + 1 => 10 * pow10_go fuel

/-- Embedding of `pow10ll` (src/hash.c lines 27-33): `r = 1; while (n-- > 0)
r *= 10`.  For `n ≤ 0` the loop body never runs and the result is 1, which
`Int.toNat` captures. -/
def pow10ll (n : Int) : Int :=
  pow10_go n.toNat

/-- Newton iteration of `isqrt` (src/hash.c lines 43-46): while `y < x` do
`x := y; y := (x + n / x) / 2`.  The first state component is `x`, the
second `y`; `x` strictly decreases at every iteration, so fuel `n + 1`
dominates the iteration count (the initial `x` is `n`). -/
def isqrt_go (fuel n x y : ℕ) : ℕ :=
  match fuel with
  | 0 => x
  | fuel + 1 => if y < x then isqrt_go fuel n y ((y + n / y) / 2) else x

/-- Embedding of `isqrt` (src/hash.c lines 39-48), Newton's method integer
square root: `x = n; y = (x + 1) / 2; while (y < x) { x = y; y = (x + n/x)/2 }`. -/
def isqrt (n : ℕ) : ℕ :=
  isqrt_go (n + 1) n n ((n + 1) / 2)

/-- Checked variant of the `isqrt` loop: returns `none` if the loop body is
about to execute `n / x` with `x = 0` (the new `x` is the old `y`).  Used to
prove that `isqrt` never divides by zero. -/
def isqrt_goChk (fuel n x y : ℕ) : Option ℕ :=
  match fuel with
  | 0 => none
  | fuel + 1 =>
    if y < x then
      if y = 0 then none else isqrt_goChk fuel n y ((y + n / y) / 2)
    else some x

/-- Checked embedding of `isqrt`: `some` result iff the loop terminates
within fuel without dividing by zero. -/
def isqrtChk (n : ℕ) : Option ℕ :=
  isqrt_goChk (n + 1) n n ((n + 1) / 2)

/-- Embedding of the two `if (v < 0) v = -v;` statements of
`quadratic_roots` (src/hash.c lines 75-76). -/
def absLL (v : Int) : Int :=
  if v < 0 then -v else v

/-- Embedding of `quadratic_roots` up to the computation of `real_part` and
`imag_part` (src/hash.c lines 57-76).  The division `(-b) / (2*a)` on line
60 divides by zero when `2*a = 0`, which is undefined behaviour in C; the
embedding returns `none` for it.  `isqrt` is applied to the negated
discriminant in the complex branch, exactly as lines 63-65 do. -/
def quadratic_parts (a b c : Int) : Option (Int × Int) :=
  let discriminant := b * b - 4 * a * c
  if 2 * a = 0 then none
  else
    let base := Int.tdiv (-b) (2 * a)
    let rp :=
      if discriminant < 0 then
        (base, (isqrt (-discriminant).toNat : Int))
      else
        let sqrt_d : Int := (isqrt discriminant.toNat : Int)
        let root1 := base + Int.tdiv sqrt_d (2 * a)
        let root2 := base - Int.tdiv sqrt_d (2 * a)
        (if root1 < root2 then root1 else root2,
         if root1 < root2 then root2 else root1)
    some (absLL rp.1, absLL rp.2)

/-- Embedding of `quadratic_roots` (src/hash.c lines 57-80): the two root
parts packed as `real_part * 1000000 + imag_part` (line 79). -/
def quadratic_roots (a b c : Int) : Option Int :=
  (quadratic_parts a b c).map (fun rp => rp.1 * 1000000 + rp.2)

/-- Local `div` of `quadratic_division` (src/hash.c line 88): `digits / 3`
with C `int` division. -/
def qd_div (digits : Int) : Int :=
  Int.tdiv digits 3

/-- Local `rem` of `quadratic_division` (src/hash.c line 89):
`digits - 2 * div`. -/
def qd_rem (digits : Int) : Int :=
  digits - 2 * qd_div digits

/-- Local `constant` of `quadratic_division` (src/hash.c line 94):
`num % p1` where `p1 = pow10ll(div)`. -/
def qd_c (num digits : Int) : Int :=
  Int.tmod num (pow10ll (qd_div digits))

/-- Local `x` of `quadratic_division` (src/hash.c line 95):
`(num / p1) % p1`. -/
def qd_b (num digits : Int) : Int :=
  Int.tmod (Int.tdiv num (pow10ll (qd_div digits))) (pow10ll (qd_div digits))

/-- Local `x_square` of `quadratic_division` (src/hash.c line 96):
`num / p2` where `p2 = pow10ll(div + rem)`. -/
def qd_a (num digits : Int) : Int :=
  Int.tdiv num (pow10ll (qd_div digits + qd_rem digits))

/-- Embedding of `quadratic_division` (src/hash.c lines 86-99): split the
packed integer into the three chunks and feed them to `quadratic_roots`. -/
def quadratic_division (num digits : Int) : Option Int :=
  quadratic_roots (qd_a num digits) (qd_b num digits) (qd_c num digits)

/-- One step of the packing loop of `hash` (src/hash.c lines 111-120): the
accumulator is multiplied by 10, 100 or 1000 depending on the byte value
and the byte value is added. -/
def packChar (num : Int) (ch : ℕ) : Int :=
  (if ch < 10 then num * 10 else if ch < 100 then num * 100 else num * 1000)
    + (ch : Int)

/-- The packing loop of `hash` (src/hash.c lines 110-120): fold `packChar`
over the bytes of the input, starting from 0. -/
def packString (str : List ℕ) : Int :=
  str.foldl packChar 0

/-- The `(uint64_t)` view of a signed 64-bit value: reduction modulo `2^64`
(two's complement). -/
def toU64 (n : Int) : ℕ :=
  (Int.emod n (2 ^ 64)).toNat

/-- Embedding of the finalizer (src/hash.c lines 126-132): `uint64_t`
arithmetic with wraparound modulo `2^64`.  `num` and `quad` are the signed
`long long` values `num` and `quad` of `hash`; both are converted to
`uint64_t` by the usual arithmetic conversions before the first line. -/
def mix64 (num quad : Int) : ℕ :=
  let h1 := toU64 num ^^^ (toU64 quad * 0x9E3779B97F4A7C15 % 2 ^ 64)
  let h2 := h1 ^^^ (h1 >>> 33)
  let h3 := h2 * 0xFF51AFD7ED558CCD % 2 ^ 64
  let h4 := h3 ^^^ (h3 >>> 33)
  let h5 := h4 * 0xC4CEB9FE1A85EC53 % 2 ^ 64
  h5 ^^^ (h5 >>> 33)

/-- Modelled from the spec: the finalizer cascade exactly as §4.3 of the
spec writes it, every step reduced modulo `2^64` ("all arithmetic is
unsigned 64-bit with silent wraparound").  Compared against `mix64`, the
embedding of the source, in the theorem for claim C5. -/
def mixSpec (packed scrambled : ℕ) : ℕ :=
  let h1 := (packed ^^^ (scrambled * 0x9E3779B97F4A7C15 % 2 ^ 64)) % 2 ^ 64
  let h2 := (h1 ^^^ (h1 >>> 33)) % 2 ^ 64
  let h3 := h2 * 0xFF51AFD7ED558CCD % 2 ^ 64
  let h4 := (h3 ^^^ (h3 >>> 33)) % 2 ^ 64
  let h5 := h4 * 0xC4CEB9FE1A85EC53 % 2 ^ 64
  (h5 ^^^ (h5 >>> 33)) % 2 ^ 64

/-- One output byte of `snprintf "%016llx"`: lowercase hexadecimal digit,
`'0'..'9'` are bytes 48-57 and `'a'..'f'` are bytes 97-102. -/
def hexChar (d : ℕ) : ℕ :=
  if d < 10 then 48 + d else 87 + d

/-- The `k` low hexadecimal digits of `h`, most significant first. -/
def hexDigits (h k : ℕ) : List ℕ :=
  match k with
  | 0 => []
  | k + 1 => hexChar (h / 16 ^ k % 16) :: hexDigits h k

/-- Embedding of the format `"%016llx"` applied to a `uint64_t` value
(src/hash.c line 135): exactly 16 zero-padded lowercase hex characters. -/
def toHex16 (h : ℕ) : List ℕ :=
  hexDigits h 16

/-- The 17-byte buffer `out` after `snprintf` (src/hash.c lines 107 and
135): the 16 hex characters followed by the NUL terminator. -/
def fmtBuffer (h : ℕ) : List ℕ :=
  toHex16 h ++ [0]

/-- Numeric value of one hexadecimal character byte (inverse of
`hexChar`), used to state the parse-back round trip of claim C6. -/
def hexVal (b : ℕ) : ℕ :=
  if 97 ≤ b then b - 87 else b - 48

/-- Parse a list of hexadecimal character bytes back into a number. -/
def parseHex (l : List ℕ) : ℕ :=
  l.foldl (fun acc b => acc * 16 + hexVal b) 0

/-- Embedding of `hash` (src/hash.c lines 105-137), composing the four
stages.  `none` models the division-by-zero trap of the quadratic stage.
The `(int)digits` cast on line 124 is lossless because `digit_return` of a
`long long` is at most 19. -/
def hash (str : List ℕ) : Option (List ℕ) :=
  let num := packString str
  let digits := digit_return num
  (quadratic_division num digits).map (fun quad => fmtBuffer (mix64 num quad))

set_option linter.unusedVariables false in
/-- One call of `hash` as seen through the static buffer `out`
(src/hash.c line 107): `buf` is the buffer content left by earlier calls;
`snprintf` overwrites all 17 bytes, so the new content is determined by the
input alone.  A `none` result models the trapping call, which never
returns. -/
def hashCall (buf : List ℕ) (str : List ℕ) : Option (List ℕ) :=
  hash str

/-- A byte string is printable when every byte is in 32..126. -/
def Printable (str : List ℕ) : Prop :=
  ∀ c ∈ str, 32 ≤ c ∧ c ≤ 126

instance (str : List ℕ) : Decidable (Printable str) :=
  List.decidableBAll _ str

/-! ### Powers of ten -/

theorem pow10_go_eq (m : ℕ) : pow10_go m = (10 : Int) ^ m := by
  induction m with
  | zero => rfl
  | succ m ih => rw [pow10_go, ih, pow_succ]; ring

theorem pow10ll_natCast (m : ℕ) : pow10ll (m : Int) = (10 : Int) ^ m := by
  rw [pow10ll, Int.toNat_natCast, pow10_go_eq]

theorem pow10ll_pos (n : Int) : 0 < pow10ll n := by
  rw [pow10ll, pow10_go_eq]
  positivity

/-! ### Decimal digit count -/

theorem digit_go_zero (fuel : ℕ) : digit_go fuel 0 = 0 := by
  cases fuel <;> simp [digit_go]

theorem digit_go_bounds :
    ∀ fuel n : ℕ, 1 ≤ n → n ≤ fuel →
      1 ≤ digit_go fuel n ∧ 10 ^ (digit_go fuel n - 1) ≤ n ∧
        n < 10 ^ digit_go fuel n := by
  intro fuel
  induction fuel with
  | zero => intro n h1 h2; omega
  | succ fuel ih =>
    intro n h1 h2
    have hne : ¬ n = 0 := by omega
    simp only [digit_go, hne, if_false]
    by_cases h10 : n < 10
    · have hq : n / 10 = 0 := Nat.div_eq_of_lt h10
      rw [hq, digit_go_zero]
      simpa using ⟨h1, h10⟩
    · have hq1 : 1 ≤ n / 10 := by
        rw [Nat.one_le_div_iff (by norm_num)]; omega
      have hqf : n / 10 ≤ fuel := by
        have := Nat.div_lt_self (show 0 < n by omega) (show 1 < 10 by norm_num)
        omega
      obtain ⟨hd1, hlow, hhigh⟩ := ih (n / 10) hq1 hqf
      refine ⟨by omega, ?_, ?_⟩
      · have e : digit_go fuel (n / 10) + 1 - 1 = digit_go fuel (n / 10) := by omega
        rw [e]
        calc 10 ^ digit_go fuel (n / 10)
            = 10 ^ (digit_go fuel (n / 10) - 1) * 10 := by
              rw [← pow_succ]
              congr 1
              omega
          _ ≤ n / 10 * 10 := Nat.mul_le_mul_right 10 hlow
          _ ≤ n := Nat.div_mul_le_self n 10
      · calc n < (n / 10 + 1) * 10 := by omega
          _ ≤ 10 ^ digit_go fuel (n / 10) * 10 := Nat.mul_le_mul_right 10 (by omega)
          _ = 10 ^ (digit_go fuel (n / 10) + 1) := (pow_succ 10 _).symm

/-- For a positive value, `digit_return` is the genuine decimal digit
count: it satisfies the two-sided power-of-ten bounds. -/
theorem digit_return_pos_spec (num : Int) (h : 0 < num) :
    ∃ k : ℕ, digit_return num = (k : Int) ∧ 1 ≤ k ∧
      (10 : Int) ^ (k - 1) ≤ num ∧ num < (10 : Int) ^ k := by
  obtain ⟨h1, hlow, hhigh⟩ :=
    digit_go_bounds num.toNat num.toNat (by omega) le_rfl
  have hnum : ((num.toNat : ℕ) : Int) = num := Int.toNat_of_nonneg h.le
  refine ⟨digit_go num.toNat num.toNat, ?_, h1, ?_, ?_⟩
  · rw [digit_return, if_neg (by omega), if_pos h]
  · rw [← hnum]; exact_mod_cast hlow
  · rw [← hnum]; exact_mod_cast hhigh

theorem digit_return_neg (num : Int) (h : num < 0) : digit_return num = 0 := by
  rw [digit_return, if_neg (by omega), if_neg (by omega)]

/-! ### Correctness of the Newton integer square root -/

/-- One Newton step starting from a positive `x` never falls below the
integer square root: `sqrt n ≤ (x + n / x) / 2`. -/
theorem newton_ge_sqrt (n x : ℕ) (hx : 1 ≤ x) :
    Nat.sqrt n ≤ (x + n / x) / 2 := by
  set s := Nat.sqrt n with hs
  by_cases hcase : 2 * s ≤ x
  · have h1 : s ≤ x / 2 := by omega
    have h2 : x / 2 ≤ (x + n / x) / 2 :=
      Nat.div_le_div_right (Nat.le_add_right x (n / x))
    exact le_trans h1 h2
  · push_neg at hcase
    have hss : s * s ≤ n := Nat.sqrt_le n
    set k := 2 * s - x with hk
    have hxk : x + k = 2 * s := by omega
    have hxkss : x * k ≤ s * s := by
      zify
      nlinarith [sq_nonneg ((s : Int) - (x : Int)), hxk]
    have h1 : k ≤ s * s / x :=
      (Nat.le_div_iff_mul_le (by omega)).mpr
        (by rw [Nat.mul_comm k x]; exact hxkss)
    have h2 : s * s / x ≤ n / x := Nat.div_le_div_right hss
    exact (Nat.le_div_iff_mul_le (by omega)).mpr (by omega)

/-- Invariant proof for the `isqrt` loop, simultaneously for the plain and
the checked variant: started at any `x ≥ 1` that is at least `sqrt n`
(with enough fuel), the loop returns exactly `sqrt n`, and the checked
variant never encounters a zero divisor. -/
theorem isqrt_go_spec (n : ℕ) (hn : 1 ≤ n) :
    ∀ fuel x : ℕ, x ≤ fuel → 1 ≤ x → Nat.sqrt n ≤ x →
      isqrt_go fuel n x ((x + n / x) / 2) = Nat.sqrt n ∧
        isqrt_goChk fuel n x ((x + n / x) / 2) = some (Nat.sqrt n) := by
  intro fuel
  induction fuel with
  | zero => intro x hxf hx1 hxs; omega
  | succ fuel ih =>
    intro x hxf hx1 hxs
    have hys : Nat.sqrt n ≤ (x + n / x) / 2 := newton_ge_sqrt n x hx1
    have hs1 : 1 ≤ Nat.sqrt n := Nat.sqrt_pos.mpr (by omega)
    by_cases hlt : (x + n / x) / 2 < x
    · have hyne : ¬ (x + n / x) / 2 = 0 := by omega
      simp only [isqrt_go, isqrt_goChk, hlt, if_true, hyne, if_false]
      exact ih ((x + n / x) / 2) (by omega) (by omega) hys
    · simp only [isqrt_go, isqrt_goChk, hlt, if_false]
      have h2x : 2 * x ≤ x + n / x := by
        have := Nat.div_mul_le_self (x + n / x) 2
        omega
      have hxx : x * x ≤ n :=
        (Nat.le_div_iff_mul_le (by omega)).mp (by omega)
      have : x = Nat.sqrt n := le_antisymm (Nat.le_sqrt.mpr hxx) hxs
      exact ⟨this, by rw [this]⟩

/-- The embedded `isqrt` computes the floor square root, and its checked
variant shows the loop never divides by zero (in particular for `n = 0`,
where the loop guard fails immediately). -/
theorem isqrt_eq_sqrt (n : ℕ) : isqrt n = Nat.sqrt n := by
  rcases Nat.eq_zero_or_pos n with h | h
  · subst h; rfl
  · have hdiv : (n + 1) / 2 = (n + n / n) / 2 := by rw [Nat.div_self h]
    rw [isqrt, hdiv]
    exact (isqrt_go_spec n h (n + 1) n (by omega) h (Nat.sqrt_le_self n)).1

theorem isqrtChk_eq (n : ℕ) : isqrtChk n = some (isqrt n) := by
  rcases Nat.eq_zero_or_pos n with h | h
  · subst h; rfl
  · have hdiv : (n + 1) / 2 = (n + n / n) / 2 := by rw [Nat.div_self h]
    rw [isqrtChk, isqrt_eq_sqrt, hdiv]
    exact (isqrt_go_spec n h (n + 1) n (by omega) h (Nat.sqrt_le_self n)).2

/-! ### Chunk extraction -/

theorem qd_div_natCast (k : ℕ) : qd_div (k : Int) = ((k / 3 : ℕ) : Int) := by
  rw [qd_div, Int.tdiv_eq_ediv (Int.natCast_nonneg k) (by norm_num)]
  exact_mod_cast (Int.ofNat_ediv k 3).symm

/-- On a non-negative packed value and a digit count given as a natural
number, the three chunk extractions of `quadratic_division` are Euclidean
division and remainder by powers of ten. -/
theorem qd_chunks_eval (num : Int) (k : ℕ) (h0 : 0 ≤ num) :
    qd_c num (k : Int) = num % 10 ^ (k / 3) ∧
      qd_b num (k : Int) = num / 10 ^ (k / 3) % 10 ^ (k / 3) ∧
      qd_a num (k : Int) = num / 10 ^ (k - k / 3) := by
  have hdiv := qd_div_natCast k
  have harg : qd_div (k : Int) + qd_rem (k : Int) = ((k - k / 3 : ℕ) : Int) := by
    rw [qd_rem, hdiv, Nat.cast_sub (Nat.div_le_self k 3)]
    ring
  refine ⟨?_, ?_, ?_⟩
  · rw [qd_c, hdiv, pow10ll_natCast,
      Int.tmod_eq_emod h0 (by positivity)]
  · rw [qd_b, hdiv, pow10ll_natCast,
      Int.tdiv_eq_ediv h0 (by positivity),
      Int.tmod_eq_emod (Int.ediv_nonneg h0 (by positivity)) (by positivity)]
  · rw [qd_a, harg, pow10ll_natCast, Int.tdiv_eq_ediv h0 (by positivity)]

/-- For packed values of at least 100 (digit count at least 3) all three
chunks are non-negative, bounded by `10 ^ (digits / 3)`, and the leading
chunk is at least 1. -/
theorem qd_bounds_of_ge_100 (num : Int) (h100 : 100 ≤ num) :
    ∃ k : ℕ, digit_return num = (k : Int) ∧ 3 ≤ k ∧
      (10 : Int) ^ (k - 1) ≤ num ∧ num < 10 ^ k ∧
      1 ≤ qd_a num (k : Int) ∧ qd_a num (k : Int) < 10 ^ (k / 3) ∧
      0 ≤ qd_b num (k : Int) ∧ qd_b num (k : Int) < 10 ^ (k / 3) ∧
      0 ≤ qd_c num (k : Int) ∧ qd_c num (k : Int) < 10 ^ (k / 3) := by
  obtain ⟨k, hk, hk1, hlow, hhigh⟩ := digit_return_pos_spec num (by omega)
  obtain ⟨hc, hb, ha⟩ := qd_chunks_eval num k (by omega)
  have hk3 : 3 ≤ k := by
    by_contra hcon
    have : (10 : Int) ^ k ≤ 10 ^ 2 := pow_le_pow_right₀ (by norm_num) (by omega)
    have : (10 : Int) ^ 2 = 100 := by norm_num
    omega
  have hp1 : (0 : Int) < 10 ^ (k / 3) := by positivity
  have hp2 : (0 : Int) < 10 ^ (k - k / 3) := by positivity
  refine ⟨k, hk, hk3, hlow, hhigh, ?_, ?_, ?_, ?_, ?_, ?_⟩
  · rw [ha, Int.le_ediv_iff_mul_le hp2, one_mul]
    calc (10 : Int) ^ (k - k / 3) ≤ 10 ^ (k - 1) :=
          pow_le_pow_right₀ (by norm_num) (by omega)
      _ ≤ num := hlow
  · rw [ha, Int.ediv_lt_iff_lt_mul hp2, ← pow_add]
    calc num < 10 ^ k := hhigh
      _ = (10 : Int) ^ (k / 3 + (k - k / 3)) := by congr 1; omega
  · rw [hb]; exact Int.emod_nonneg _ hp1.ne'
  · rw [hb]
    exact Int.emod_lt_of_pos _ hp1
  · rw [hc]; exact Int.emod_nonneg num hp1.ne'
  · rw [hc]; exact Int.emod_lt_of_pos num hp1

theorem quadratic_roots_none_iff (a b c : Int) :
    quadratic_roots a b c = none ↔ a = 0 := by
  by_cases h : 2 * a = 0
  · simp only [quadratic_roots, quadratic_parts, h, if_true, Option.map_none]
    constructor
    · intro; omega
    · intro; rfl
  · simp only [quadratic_roots, quadratic_parts, h, if_false, Option.map_some]
    constructor
    · intro hcon; cases hcon
    · intro; omega

/-- The quadratic stage traps (divides by zero) exactly when the packed
accumulator lies in `0..99`. -/
theorem quadratic_division_none_iff (num : Int) :
    quadratic_division num (digit_return num) = none ↔
      0 ≤ num ∧ num ≤ 99 := by
  rcases lt_trichotomy num 0 with hneg | hzero | hpos
  · rw [quadratic_division, digit_return_neg num hneg,
      quadratic_roots_none_iff]
    have ha : qd_a num 0 = num := by
      simp [qd_a, qd_div, qd_rem, pow10ll, pow10_go]
    rw [ha]
    omega
  · subst hzero; decide
  · obtain ⟨k, hk, hk1, hlow, hhigh⟩ := digit_return_pos_spec num hpos
    by_cases h99 : num ≤ 99
    · have hk2 : k ≤ 2 := by
        by_contra hcon
        have : (10 : Int) ^ 2 ≤ 10 ^ (k - 1) :=
          pow_le_pow_right₀ (by norm_num) (by omega)
        have : (10 : Int) ^ 2 = 100 := by norm_num
        omega
      have hk30 : k / 3 = 0 := by omega
      obtain ⟨-, -, ha⟩ := qd_chunks_eval num k (by omega)
      rw [quadratic_division, hk, quadratic_roots_none_iff, ha]
      have : num / 10 ^ (k - k / 3) = 0 := by
        refine Int.ediv_eq_zero_of_lt (by omega) ?_
        rw [show k - k / 3 = k by omega]
        exact hhigh
      rw [this]
      simp
      omega
    · obtain ⟨k2, hk2, -, -, -, ha1, -⟩ := qd_bounds_of_ge_100 num (by omega)
      rw [quadratic_division, hk2, quadratic_roots_none_iff]
      omega

/-! ### Range of the quadratic scrambler -/

theorem absLL_of_nonneg (v : Int) (h : 0 ≤ v) : absLL v = v := by
  rw [absLL, if_neg (by omega)]

theorem absLL_bounds (v M : Int) (h1 : -M ≤ v) (h2 : v ≤ M) :
    0 ≤ absLL v ∧ absLL v ≤ M := by
  rw [absLL]; split <;> omega

/-- A truncating division of a non-negative value by `2*a` with `a ≥ 1` is
non-negative and at most half the dividend. -/
theorem tdiv_twice_le (v a : Int) (hv : 0 ≤ v) (ha : 1 ≤ a) :
    0 ≤ Int.tdiv v (2 * a) ∧ 2 * Int.tdiv v (2 * a) ≤ v := by
  have h2a : (0 : Int) < 2 * a := by omega
  refine ⟨Int.tdiv_nonneg hv h2a.le, ?_⟩
  have htm : Int.tdiv v (2 * a) * (2 * a) ≤ v := by
    rw [Int.tdiv_eq_ediv hv h2a.le]
    exact Int.ediv_mul_le v (by omega)
  have ht0 : 0 ≤ Int.tdiv v (2 * a) := Int.tdiv_nonneg hv h2a.le
  have : Int.tdiv v (2 * a) * 2 ≤ Int.tdiv v (2 * a) * (2 * a) :=
    mul_le_mul_of_nonneg_left (by omega) ht0
  omega

/-- Main range lemma for the scrambler: on chunks `1 ≤ a ≤ 999999`,
`0 ≤ b, c ≤ 999999` the root parts are defined (no division by zero) and
their packing stays within 12 decimal digits.  In the complex branch the
imaginary part can reach 7 digits (up to 1999998), but the real part is
then at most 499999, so the packed value still fits. -/
theorem quadratic_parts_bound (a b c : Int)
    (ha1 : 1 ≤ a) (ha : a ≤ 999999) (hb0 : 0 ≤ b) (hb : b ≤ 999999)
    (hc0 : 0 ≤ c) (hc : c ≤ 999999) :
    ∃ R I : Int, quadratic_parts a b c = some (R, I) ∧
      0 ≤ R ∧ 0 ≤ I ∧ R * 1000000 + I ≤ 999999999999 := by
  have h2ane : ¬ (2 * a = 0) := by omega
  obtain ⟨ht0, ht2⟩ := tdiv_twice_le b a hb0 ha1
  have htb : Int.tdiv b (2 * a) ≤ 499999 := by omega
  have hbase : Int.tdiv (-b) (2 * a) = -Int.tdiv b (2 * a) := Int.neg_tdiv b (2 * a)
  by_cases hdisc : b * b - 4 * a * c < 0
  · -- complex branch
    rw [quadratic_parts]
    simp only [if_neg h2ane, if_pos hdisc]
    have hac : a * c ≤ 999999 * 999999 := mul_le_mul ha hc hc0 (by norm_num)
    have hac4 : 4 * a * c = 4 * (a * c) := by ring
    have hbb : 0 ≤ b * b := mul_self_nonneg b
    have hmInt : ((-(b * b - 4 * a * c)).toNat : Int) = -(b * b - 4 * a * c) :=
      Int.toNat_of_nonneg (by omega)
    have hmlt : (-(b * b - 4 * a * c)).toNat < 1999999 * 1999999 := by
      have : -(b * b - 4 * a * c) < 1999999 * 1999999 := by omega
      omega
    have hsq : isqrt (-(b * b - 4 * a * c)).toNat ≤ 1999998 := by
      rw [isqrt_eq_sqrt]
      have := Nat.sqrt_lt.mpr hmlt
      omega
    refine ⟨absLL (Int.tdiv (-b) (2 * a)),
      absLL ((isqrt (-(b * b - 4 * a * c)).toNat : ℕ) : Int), rfl, ?_⟩
    obtain ⟨hR0, hR⟩ := absLL_bounds (Int.tdiv (-b) (2 * a)) 499999
      (by omega) (by omega)
    obtain ⟨hI0, hI⟩ := absLL_bounds
      ((isqrt (-(b * b - 4 * a * c)).toNat : ℕ) : Int) 1999998
      (by omega) (by exact_mod_cast hsq)
    refine ⟨hR0, hI0, by omega⟩
  · -- real branch
    rw [quadratic_parts]
    simp only [if_neg h2ane, if_neg hdisc]
    have hbb : b * b ≤ 999999 * 999999 := mul_le_mul hb hb hb0 (by norm_num)
    have h4ac : 0 ≤ 4 * a * c := by positivity
    have hdn : (b * b - 4 * a * c).toNat ≤ 999999 * 999999 := by
      have h1 : b * b - 4 * a * c ≤ (999999 * 999999 : Int) := by omega
      omega
    have hsd : isqrt (b * b - 4 * a * c).toNat ≤ 999999 := by
      rw [isqrt_eq_sqrt]
      calc Nat.sqrt (b * b - 4 * a * c).toNat
          ≤ Nat.sqrt (999999 * 999999) := Nat.sqrt_le_sqrt hdn
        _ = 999999 := Nat.sqrt_eq 999999
    have hsd0 : (0 : Int) ≤ ((isqrt (b * b - 4 * a * c).toNat : ℕ) : Int) := by
      positivity
    obtain ⟨hu0, hu2⟩ := tdiv_twice_le
      ((isqrt (b * b - 4 * a * c).toNat : ℕ) : Int) a hsd0 ha1
    have hsdInt : ((isqrt (b * b - 4 * a * c).toNat : ℕ) : Int) ≤ 999999 := by
      exact_mod_cast hsd
    have hub : Int.tdiv ((isqrt (b * b - 4 * a * c).toNat : ℕ) : Int) (2 * a)
        ≤ 499999 := by omega
    have hroot : ¬ (Int.tdiv (-b) (2 * a) +
        Int.tdiv ((isqrt (b * b - 4 * a * c).toNat : ℕ) : Int) (2 * a) <
        Int.tdiv (-b) (2 * a) -
        Int.tdiv ((isqrt (b * b - 4 * a * c).toNat : ℕ) : Int) (2 * a)) := by
      omega
    simp only [if_neg hroot]
    refine ⟨_, _, rfl, ?_⟩
    obtain ⟨hR0, hR⟩ := absLL_bounds (Int.tdiv (-b) (2 * a) -
      Int.tdiv ((isqrt (b * b - 4 * a * c).toNat : ℕ) : Int) (2 * a)) 999998
      (by omega) (by omega)
    obtain ⟨hI0, hI⟩ := absLL_bounds (Int.tdiv (-b) (2 * a) +
      Int.tdiv ((isqrt (b * b - 4 * a * c).toNat : ℕ) : Int) (2 * a)) 999998
      (by omega) (by omega)
    exact ⟨hR0, hI0, by omega⟩

/-- Range of `quadratic_roots` on bounded chunks. -/
theorem quadratic_roots_bound (a b c : Int)
    (ha1 : 1 ≤ a) (ha : a ≤ 999999) (hb0 : 0 ≤ b) (hb : b ≤ 999999)
    (hc0 : 0 ≤ c) (hc : c ≤ 999999) :
    ∃ r : Int, quadratic_roots a b c = some r ∧ 0 ≤ r ∧
      r ≤ 999999999999 := by
  obtain ⟨R, I, heq, hR0, hI0, hRI⟩ :=
    quadratic_parts_bound a b c ha1 ha hb0 hb hc0 hc
  refine ⟨R * 1000000 + I, ?_, by omega, hRI⟩
  rw [quadratic_roots, heq]
  rfl

/-! ### The digit packer -/

theorem packString_append (l : List ℕ) (c : ℕ) :
    packString (l ++ [c]) = packChar (packString l) c := by
  simp [packString, List.foldl_append]

theorem foldl_packChar_nonneg :
    ∀ (l : List ℕ) (acc : Int), 0 ≤ acc → 0 ≤ List.foldl packChar acc l := by
  intro l
  induction l with
  | nil => intro acc h; simpa using h
  | cons c l ih =>
    intro acc h
    rw [List.foldl_cons]
    refine ih _ ?_
    have h10 : 0 ≤ acc * 10 := mul_nonneg h (by norm_num)
    have h100 : 0 ≤ acc * 100 := mul_nonneg h (by norm_num)
    have h1000 : 0 ≤ acc * 1000 := mul_nonneg h (by norm_num)
    rw [packChar]
    split
    · omega
    · split <;> omega

theorem packString_nonneg (l : List ℕ) : 0 ≤ packString l :=
  foldl_packChar_nonneg l 0 le_rfl

theorem packChar_eval2 (num : Int) (c : ℕ) (h32 : 32 ≤ c) (h100 : c < 100) :
    packChar num c = num * 100 + (c : Int) := by
  rw [packChar, if_neg (by omega), if_pos h100]

theorem packChar_eval3 (num : Int) (c : ℕ) (h100 : 100 ≤ c) :
    packChar num c = num * 1000 + (c : Int) := by
  rw [packChar, if_neg (by omega), if_neg (by omega)]

theorem packChar_ge (num : Int) (h : 0 ≤ num) (c : ℕ) :
    (c : Int) ≤ packChar num c := by
  have h10 : 0 ≤ num * 10 := mul_nonneg h (by norm_num)
  have h100 : 0 ≤ num * 100 := mul_nonneg h (by norm_num)
  have h1000 : 0 ≤ num * 1000 := mul_nonneg h (by norm_num)
  rw [packChar]
  split
  · omega
  · split <;> omega

/-- A non-empty printable string packs to at least 32. -/
theorem packString_ge_32 (l : List ℕ) (hp : Printable l) (hne : l ≠ []) :
    32 ≤ packString l := by
  rcases List.eq_nil_or_concat l with rfl | ⟨L, b, rfl⟩
  · exact absurd rfl hne
  · rw [List.concat_eq_append, packString_append]
    have hb := hp b (by simp)
    have := packChar_ge (packString L) (packString_nonneg L) b
    omega

/-- A printable string of length at least 2 packs to at least 3200. -/
theorem packString_ge_3200 (l : List ℕ) (hp : Printable l)
    (hlen : 2 ≤ l.length) : 3200 ≤ packString l := by
  rcases List.eq_nil_or_concat l with rfl | ⟨L, b, rfl⟩
  · simp at hlen
  · rw [List.concat_eq_append] at hlen ⊢
    rw [packString_append]
    have hb := hp b (by simp)
    have hL : Printable L := fun c hc => hp c (by simp [hc])
    have hLne : L ≠ [] := by
      intro hcon
      subst hcon
      simp at hlen
    have h32 : 32 ≤ packString L := packString_ge_32 L hL hLne
    rw [packChar, if_neg (by omega)]
    have h1 : 32 * 100 ≤ packString L * 100 := by omega
    have h2 : 32 * 1000 ≤ packString L * 1000 := by omega
    split <;> omega

/-- Injectivity of the digit packer on printable strings: each byte
occupies a dedicated decimal slot (2 digits for bytes 32..99, 3 digits for
bytes 100..126), and whether the last slot was 2 or 3 digits wide can be
read off from the packed value modulo 1000, so the packing can be peeled
off from the right. -/
theorem packString_inj_aux :
    ∀ n : ℕ, ∀ s t : List ℕ, s.length ≤ n → Printable s → Printable t →
      packString s = packString t → s = t := by
  intro n
  induction n with
  | zero =>
    intro s t hlen hs ht heq
    have hs0 : s = [] := by
      cases s with
      | nil => rfl
      | cons a l => simp at hlen
    subst hs0
    by_contra hne
    have h32 := packString_ge_32 t ht (by tauto)
    have : packString ([] : List ℕ) = 0 := rfl
    omega
  | succ n ih =>
    intro s t hlen hs ht heq
    rcases List.eq_nil_or_concat s with rfl | ⟨L, b, rfl⟩
    · by_contra hne
      have h32 := packString_ge_32 t ht (by tauto)
      have : packString ([] : List ℕ) = 0 := rfl
      omega
    · simp only [List.concat_eq_append] at hs heq hlen ⊢
      rcases List.eq_nil_or_concat t with rfl | ⟨M, d, rfl⟩
      · exfalso
        have h32 := packString_ge_32 (L ++ [b]) hs (by simp)
        have : packString ([] : List ℕ) = 0 := rfl
        omega
      · simp only [List.concat_eq_append] at ht heq ⊢
        rw [packString_append, packString_append] at heq
        have hb := hs b (by simp)
        have hd := ht d (by simp)
        have hL : Printable L := fun c hc => hs c (by simp [hc])
        have hM : Printable M := fun c hc => ht c (by simp [hc])
        have hpL : 0 ≤ packString L := packString_nonneg L
        have hpM : 0 ≤ packString M := packString_nonneg M
        have hlen2 : L.length ≤ n := by
          rw [List.length_append] at hlen
          simp at hlen
          omega
        have key : b = d ∧ packString L = packString M := by
          by_cases hb100 : b < 100 <;> by_cases hd100 : d < 100
          · rw [packChar_eval2 _ b (by omega) hb100,
              packChar_eval2 _ d (by omega) hd100] at heq
            constructor <;> omega
          · rw [packChar_eval2 _ b (by omega) hb100,
              packChar_eval3 _ d (by omega)] at heq
            omega
          · rw [packChar_eval3 _ b (by omega),
              packChar_eval2 _ d (by omega) hd100] at heq
            omega
          · rw [packChar_eval3 _ b (by omega),
              packChar_eval3 _ d (by omega)] at heq
            constructor <;> omega
        rw [key.1, ih L M hlen2 hL hM key.2]

theorem packString_inj (s t : List ℕ) (hs : Printable s) (ht : Printable t)
    (heq : packString s = packString t) : s = t :=
  packString_inj_aux s.length s t le_rfl hs ht heq

/-! ### The hexadecimal formatter -/

theorem hexDigits_length (h k : ℕ) : (hexDigits h k).length = k := by
  induction k with
  | zero => rfl
  | succ k ih => simp [hexDigits, ih]

theorem hexChar_range (d : ℕ) (hd : d < 16) :
    (48 ≤ hexChar d ∧ hexChar d ≤ 57) ∨
      (97 ≤ hexChar d ∧ hexChar d ≤ 102) := by
  rw [hexChar]; split <;> omega

theorem hexDigits_range (h k : ℕ) :
    ∀ b ∈ hexDigits h k,
      (48 ≤ b ∧ b ≤ 57) ∨ (97 ≤ b ∧ b ≤ 102) := by
  induction k with
  | zero => intro b hb; simp [hexDigits] at hb
  | succ k ih =>
    intro b hb
    rw [hexDigits, List.mem_cons] at hb
    rcases hb with rfl | hb
    · exact hexChar_range _ (Nat.mod_lt _ (by norm_num))
    · exact ih b hb

theorem hexVal_hexChar (d : ℕ) (hd : d < 16) : hexVal (hexChar d) = d := by
  rw [hexChar, hexVal]
  split <;> split <;> omega

theorem parseHex_hexDigits :
    ∀ (k h acc : ℕ),
      List.foldl (fun acc b => acc * 16 + hexVal b) acc (hexDigits h k) =
        acc * 16 ^ k + h % 16 ^ k := by
  intro k
  induction k with
  | zero => intro h acc; simp [hexDigits, Nat.mod_one]
  | succ k ih =>
    intro h acc
    rw [hexDigits, List.foldl_cons, ih,
      hexVal_hexChar _ (Nat.mod_lt _ (by norm_num))]
    have hmod : h % 16 ^ (k + 1) = h % 16 ^ k + 16 ^ k * (h / 16 ^ k % 16) := by
      rw [pow_succ]
      exact Nat.mod_mul
    rw [hmod, pow_succ]
    ring

/-- Parsing the 16 emitted hex characters back recovers any 64-bit value. -/
theorem parseHex_toHex16 (h : ℕ) (hlt : h < 2 ^ 64) :
    parseHex (toHex16 h) = h := by
  rw [toHex16, parseHex, parseHex_hexDigits 16 h 0]
  have : h % 16 ^ 16 = h := Nat.mod_eq_of_lt (by norm_num at hlt ⊢; omega)
  omega

/-! ### The finalizer -/

theorem toU64_lt (n : Int) : toU64 n < 2 ^ 64 := by
  rw [toU64]
  have h1 : Int.emod n (2 ^ 64) < 2 ^ 64 := Int.emod_lt_of_pos n (by positivity)
  have h2 : 0 ≤ Int.emod n (2 ^ 64) := Int.emod_nonneg n (by positivity)
  omega

theorem u64_xor_lt (x y : ℕ) (hx : x < 2 ^ 64) (hy : y < 2 ^ 64) :
    x ^^^ y < 2 ^ 64 :=
  Nat.xor_lt_two_pow hx hy

theorem shiftRight_le_self (x k : ℕ) : x >>> k ≤ x := by
  rw [Nat.shiftRight_eq_div_pow]
  exact Nat.div_le_self x (2 ^ k)

/-- The mixed value is a well-formed `uint64_t`. -/
theorem mix64_lt (num quad : Int) : mix64 num quad < 2 ^ 64 := by
  rw [mix64]
  refine u64_xor_lt _ _ (Nat.mod_lt _ (by norm_num)) ?_
  exact lt_of_le_of_lt (shiftRight_le_self _ _) (Nat.mod_lt _ (by norm_num))

/-- The source finalizer computes exactly the cascade of spec §4.3: the
only difference between `mix64` and `mixSpec` is that the spec reduces
every xor step modulo `2^64` as well, and xor never leaves the 64-bit
range. -/
theorem mix64_eq_mixSpec (num quad : Int) :
    mix64 num quad = mixSpec (toU64 num) (toU64 quad) := by
  rw [mix64, mixSpec]
  have e1 : (toU64 num ^^^ toU64 quad * 0x9E3779B97F4A7C15 % 2 ^ 64) % 2 ^ 64 =
      toU64 num ^^^ toU64 quad * 0x9E3779B97F4A7C15 % 2 ^ 64 :=
    Nat.mod_eq_of_lt (u64_xor_lt _ _ (toU64_lt num) (Nat.mod_lt _ (by norm_num)))
  rw [e1]
  set h1 := toU64 num ^^^ toU64 quad * 0x9E3779B97F4A7C15 % 2 ^ 64 with hh1
  have h1lt : h1 < 2 ^ 64 :=
    u64_xor_lt _ _ (toU64_lt num) (Nat.mod_lt _ (by norm_num))
  have e2 : (h1 ^^^ h1 >>> 33) % 2 ^ 64 = h1 ^^^ h1 >>> 33 :=
    Nat.mod_eq_of_lt (u64_xor_lt _ _ h1lt
      (lt_of_le_of_lt (shiftRight_le_self _ _) h1lt))
  rw [e2]
  set h3 := (h1 ^^^ h1 >>> 33) * 0xFF51AFD7ED558CCD % 2 ^ 64 with hh3
  have h3lt : h3 < 2 ^ 64 := Nat.mod_lt _ (by norm_num)
  have e3 : (h3 ^^^ h3 >>> 33) % 2 ^ 64 = h3 ^^^ h3 >>> 33 :=
    Nat.mod_eq_of_lt (u64_xor_lt _ _ h3lt
      (lt_of_le_of_lt (shiftRight_le_self _ _) h3lt))
  rw [e3]
  set h5 := (h3 ^^^ h3 >>> 33) * 0xC4CEB9FE1A85EC53 % 2 ^ 64 with hh5
  have h5lt : h5 < 2 ^ 64 := Nat.mod_lt _ (by norm_num)
  have e4 : (h5 ^^^ h5 >>> 33) % 2 ^ 64 = h5 ^^^ h5 >>> 33 :=
    Nat.mod_eq_of_lt (u64_xor_lt _ _ h5lt
      (lt_of_le_of_lt (shiftRight_le_self _ _) h5lt))
  rw [e4]

/-- Splitting a natural number by two successive divisions by `p` and the
matching remainders recovers the number. -/
theorem nat_three_chunk (n p : ℕ) :
    n = n / (p * p) * (p * p) + n / p % p * p + n % p := by
  rw [← Nat.div_div_eq_div_mul]
  conv_lhs => rw [← Nat.div_add_mod n p]
  conv_lhs => rw [← Nat.div_add_mod (n / p) p]
  ring

/-! ## The claims -/

/-- Claim C1: the spec requires `hash` to run to completion without
trapping on every printable input, in particular on the empty string,
whose packed accumulator is 0.  The code violates this: with accumulator
0 the digit count is 1, `div = 0`, all three chunks are 0, and
`quadratic_roots` divides by zero in `(-b) / (2*a)`.  This theorem
evaluates the embedding at the failing inputs: the empty string and the
one-character printable string `"a"` (byte 97) both trap. -/
theorem c1_empty_string_traps :
    packString [] = 0 ∧ digit_return 0 = 1 ∧ hash [] = none ∧
      hash [97] = none := by decide

/-- Claim C2 counterexample: the three chunks do not partition the decimal
representation when the digit count is not divisible by 3.  For `num =
1234` (4 digits, `div = 1`, `rem = 2`) the extraction reads the leading
chunk as `num / 10^(div+rem) = 1`, a 1-digit value rather than the claimed
`digits - 2*div = 2` digits, and drops the digit `2` entirely, so `1234`
and `1334` yield identical chunk triples — `num` is not recoverable. -/
theorem c2_chunks_counterexample :
    digit_return 1234 = 4 ∧ digit_return 1334 = 4 ∧
      qd_a 1234 4 = qd_a 1334 4 ∧ qd_b 1234 4 = qd_b 1334 4 ∧
      qd_c 1234 4 = qd_c 1334 4 ∧ (1234 : Int) ≠ 1334 ∧
      qd_a 1234 4 = 1 ∧ digit_return (qd_a 1234 4) = 1 := by decide

/-- Claim C2 (amended): for every non-negative packed integer with digit
count `digits = digit_return num`, the trailing chunk `c = num mod
10^div`, the middle chunk `b = (num / 10^div) mod 10^div` and the leading
chunk `a = num / 10^(div+rem)` all lie in `[0, 10^div)` — the leading
chunk has at most `div` digits, not `digits - 2*div` — and the three
chunks partition the decimal representation (so `num` is recoverable from
them and the split positions) when `digits` is divisible by 3; otherwise
the `rem - div` digits above position `2*div` are discarded. -/
theorem c2_chunks_amended (num : Int) (h0 : 0 ≤ num) :
    0 ≤ qd_c num (digit_return num) ∧
      qd_c num (digit_return num) < pow10ll (qd_div (digit_return num)) ∧
      0 ≤ qd_b num (digit_return num) ∧
      qd_b num (digit_return num) < pow10ll (qd_div (digit_return num)) ∧
      0 ≤ qd_a num (digit_return num) ∧
      qd_a num (digit_return num) < pow10ll (qd_div (digit_return num)) ∧
      ((3 : Int) ∣ digit_return num →
        num = qd_a num (digit_return num) *
            (pow10ll (qd_div (digit_return num)) *
              pow10ll (qd_div (digit_return num))) +
          qd_b num (digit_return num) * pow10ll (qd_div (digit_return num)) +
          qd_c num (digit_return num)) := by
  rcases h0.eq_or_lt with rfl | hpos
  · decide
  · obtain ⟨k, hk, hk1, hlow, hhigh⟩ := digit_return_pos_spec num hpos
    obtain ⟨hc, hb, ha⟩ := qd_chunks_eval num k hpos.le
    rw [hk, qd_div_natCast, pow10ll_natCast, hc, hb, ha]
    have hp1 : (0 : Int) < 10 ^ (k / 3) := by positivity
    have hp2 : (0 : Int) < 10 ^ (k - k / 3) := by positivity
    refine ⟨Int.emod_nonneg num hp1.ne', Int.emod_lt_of_pos num hp1,
      Int.emod_nonneg _ hp1.ne', Int.emod_lt_of_pos _ hp1,
      Int.ediv_nonneg hpos.le hp2.le, ?_, ?_⟩
    · rw [Int.ediv_lt_iff_lt_mul hp2, ← pow_add]
      calc num < 10 ^ k := hhigh
        _ = (10 : Int) ^ (k / 3 + (k - k / 3)) := by congr 1; omega
    · intro hdvd
      have hdvd' : 3 ∣ k := by exact_mod_cast hdvd
      obtain ⟨m, rfl⟩ := hdvd'
      have hm : 3 * m / 3 = m := by omega
      have he : 3 * m - m = m + m := by omega
      rw [hm, he, pow_add]
      have hchunk := nat_three_chunk num.toNat (10 ^ m)
      zify at hchunk
      rw [Int.toNat_of_nonneg hpos.le] at hchunk
      linarith [hchunk]

/-- Claim C3 counterexample: the scrambled value is not always positive —
for packed value 100 (digit count 3, chunks `a = 1, b = 0, c = 0`, reached
by the input `"d"`) the result is 0.  Moreover the root parts are not both
limited to 6 digits: for the 18-digit packed value 999999000000999999 the
chunks are `a = 999999, b = 0, c = 999999`, the discriminant is negative,
and the imaginary part `isqrt(4ac) = 1999998` has 7 digits. -/
theorem c3_scrambler_counterexample :
    digit_return 100 = 3 ∧ quadratic_division 100 3 = some 0 ∧
      packString [100] = 100 ∧
      digit_return 999999000000999999 = 18 ∧
      quadratic_parts (qd_a 999999000000999999 18)
        (qd_b 999999000000999999 18) (qd_c 999999000000999999 18) =
        some (0, 1999998) ∧ (1999998 : Int) > 999999 := by decide

/-- Claim C3 (amended): for every packed integer of at least 100 in the
signed 64-bit range, the Quadratic Scrambler returns a non-negative
integer no greater than 999999999999 (the packing
`real * 1000000 + imag` of the absolute values of the two root parts;
the real slot stays below 10^6, the imaginary slot may reach 1999998 in
the complex branch but only when the real slot is small). -/
theorem c3_scrambler_range (num : Int) (h100 : 100 ≤ num)
    (hub : num < 9223372036854775808) :
    ∃ r : Int, quadratic_division num (digit_return num) = some r ∧
      0 ≤ r ∧ r ≤ 999999999999 := by
  obtain ⟨k, hk, hk3, hlow, hhigh, ha1, haU, hb0, hbU, hc0, hcU⟩ :=
    qd_bounds_of_ge_100 num h100
  have hk19 : k ≤ 19 := by
    by_contra hcon
    have h1 : (10 : Int) ^ 19 ≤ 10 ^ (k - 1) :=
      pow_le_pow_right₀ (by norm_num) (by omega)
    have h2 : (10 : Int) ^ 19 = 10000000000000000000 := by norm_num
    omega
  have hp6 : (10 : Int) ^ (k / 3) ≤ 10 ^ 6 :=
    pow_le_pow_right₀ (by norm_num) (by omega)
  have h106 : (10 : Int) ^ 6 = 1000000 := by norm_num
  rw [quadratic_division, hk]
  exact quadratic_roots_bound _ _ _ ha1 (by omega) hb0 (by omega) hc0
    (by omega)

/-- Claim C4: the embedded Newton iteration `isqrt` terminates on every
non-negative input and returns the floor of the true square root
(`Nat.sqrt`); its division-checked variant always succeeds, so the loop
never divides by zero — in particular `isqrt 0 = 0` without entering the
loop body. -/
theorem c4_isqrt_floor_sqrt :
    ∀ n : ℕ, isqrt n = Nat.sqrt n ∧ isqrtChk n = some (isqrt n) ∧
      isqrt 0 = 0 :=
  fun n => ⟨isqrt_eq_sqrt n, isqrtChk_eq n, rfl⟩

/-- Claim C5: the finalizer of the source computes exactly the cascade
specified in §4.3 — golden-ratio multiply of the scrambled value, xor with
the packed value, then the three xor-shift / multiply rounds — with every
operation performed as unsigned 64-bit arithmetic modulo `2^64`, and the
result is a well-formed 64-bit value. -/
theorem c5_finalizer_cascade :
    ∀ num quad : Int,
      mix64 num quad = mixSpec (toU64 num) (toU64 quad) ∧
        mix64 num quad < 2 ^ 64 :=
  fun num quad => ⟨mix64_eq_mixSpec num quad, mix64_lt num quad⟩

/-- Claim C6: for every 64-bit mixed value the formatter emits exactly 16
lowercase hexadecimal character bytes (digits 48..57, letters 97..102),
zero-padded, followed by a NUL terminator in the 17-byte buffer, and
parsing the 16 characters back as an unsigned 64-bit integer recovers the
mixed value exactly. -/
theorem c6_formatter_roundtrip (h : ℕ) (hlt : h < 2 ^ 64) :
    (toHex16 h).length = 16 ∧
      (∀ b ∈ toHex16 h, (48 ≤ b ∧ b ≤ 57) ∨ (97 ≤ b ∧ b ≤ 102)) ∧
      fmtBuffer h = toHex16 h ++ [0] ∧
      parseHex (toHex16 h) = h :=
  ⟨hexDigits_length h 16, hexDigits_range h 16, rfl, parseHex_toHex16 h hlt⟩

/-- Witness for C6 at the concrete 64-bit value `0x0123456789abcdef`. -/
theorem c6_formatter_roundtrip_witness :
    (toHex16 81985529216486895).length = 16 ∧
      (∀ b ∈ toHex16 81985529216486895,
        (48 ≤ b ∧ b ≤ 57) ∨ (97 ≤ b ∧ b ≤ 102)) ∧
      fmtBuffer 81985529216486895 = toHex16 81985529216486895 ++ [0] ∧
      parseHex (toHex16 81985529216486895) = 81985529216486895 :=
  c6_formatter_roundtrip 81985529216486895 (by decide)

set_option linter.unusedVariables false in
/-- Claim C7: on printable strings (bytes 32..126) whose packed
accumulators stay in the signed 64-bit range, the Digit Packer is
injective — distinct strings pack to distinct integers, because every
byte occupies a dedicated decimal slot sized to its own digit count. -/
theorem c7_packer_injective (s t : List ℕ) (hs : Printable s)
    (ht : Printable t) (hbs : packString s < 2 ^ 63)
    (hbt : packString t < 2 ^ 63) (hne : s ≠ t) :
    packString s ≠ packString t :=
  fun heq => hne (packString_inj s t hs ht heq)

/-- Witness for C7 on the strings `"a"` and `"b"`. -/
theorem c7_packer_injective_witness : packString [97] ≠ packString [98] :=
  c7_packer_injective [97] [98] (by decide) (by decide) (by decide)
    (by decide) (by decide)

/-- Claim C8: for every digit count of at least 1, `div = digits / 3` and
`rem = digits - 2*div` satisfy `rem + 2*div = digits` and `rem ≥ div`. -/
theorem c8_chunk_split_consistent (digits : Int) (h : 1 ≤ digits) :
    qd_rem digits + 2 * qd_div digits = digits ∧
      qd_div digits ≤ qd_rem digits := by
  have hdiv : qd_div digits = digits / 3 := by
    rw [qd_div, Int.tdiv_eq_ediv (by omega) (by norm_num)]
  rw [qd_rem, hdiv]
  omega

/-- Witness for C8 at digit count 4. -/
theorem c8_chunk_split_consistent_witness :
    qd_rem 4 + 2 * qd_div 4 = 4 ∧ qd_div 4 ≤ qd_rem 4 :=
  c8_chunk_split_consistent 4 (by decide)

/-- Claim C9: `hash` is deterministic — the outcome of a call depends only
on the input string (and fixed constants), not on the contents the static
buffer holds from prior calls, and any produced digest is the 17-byte
buffer holding 16 hex characters of a 64-bit value plus the NUL
terminator.  Hence two calls on the same string give identical buffer
contents. -/
theorem c9_deterministic :
    ∀ (s b1 b2 : List ℕ), hashCall b1 s = hashCall b2 s ∧
      ∀ out, hashCall b1 s = some out →
        out.length = 17 ∧ ∃ h : ℕ, h < 2 ^ 64 ∧ out = toHex16 h ++ [0] := by
  intro s b1 b2
  refine ⟨rfl, ?_⟩
  intro out hout
  simp only [hashCall, hash] at hout
  rcases hq : quadratic_division (packString s) (digit_return (packString s))
    with _ | quad
  · rw [hq] at hout
    exact Option.noConfusion hout
  · rw [hq] at hout
    simp only [Option.map_some', Option.some_inj] at hout
    subst hout
    refine ⟨?_, mix64 (packString s) quad, mix64_lt _ _, rfl⟩
    simp [fmtBuffer, toHex16, hexDigits_length]

/-- Witness for C9: two calls on the string `"hi"` (bytes 104, 105) with
different prior buffer contents agree, and the digest produced has the
full 17-byte length. -/
theorem c9_deterministic_witness :
    hashCall [] [104, 105] = hashCall [7] [104, 105] ∧
      ([97, 101, 54, 102, 102, 57, 101, 99, 49, 57, 49, 55, 55, 101, 102,
        57, 0] : List ℕ).length = 17 := by
  have h := c9_deterministic [104, 105] [] [7]
  exact ⟨h.1, (h.2 _ (by decide)).1⟩

/-- Claim C10: the quadratic stage divides by zero exactly when the packed
accumulator lies in 0..99; every printable string of at least two
characters, and every one-character string whose byte is at least 100,
packs to at least 100 (3200 in the two-character case), so `hash`
completes the quadratic stage without dividing by zero on those inputs —
and likewise for any negative accumulator. -/
theorem c10_trap_domain :
    (∀ num : Int,
      quadratic_division num (digit_return num) = none ↔
        0 ≤ num ∧ num ≤ 99) ∧
      (∀ l : List ℕ, Printable l → 2 ≤ l.length → 100 ≤ packString l) ∧
      (∀ c : ℕ, 100 ≤ c → c ≤ 126 → 100 ≤ packString [c]) ∧
      (∀ l : List ℕ, Printable l → 2 ≤ l.length →
        ∃ out, hash l = some out) := by
  refine ⟨quadratic_division_none_iff, ?_, ?_, ?_⟩
  · intro l hp hlen
    have := packString_ge_3200 l hp hlen
    omega
  · intro c h1 h2
    show 100 ≤ packChar 0 c
    rw [packChar_eval3 0 c h1]
    omega
  · intro l hp hlen
    have h100 : 100 ≤ packString l := by
      have := packString_ge_3200 l hp hlen
      omega
    have hnone := quadratic_division_none_iff (packString l)
    rcases hq : quadratic_division (packString l) (digit_return (packString l))
      with _ | quad
    · exfalso
      have := hnone.mp hq
      omega
    · refine ⟨fmtBuffer (mix64 (packString l) quad), ?_⟩
      simp only [hash]
      rw [hq]
      rfl

/-- Witness for C10: the packed value 5 is in the trap range; the string
`"hi"` packs above 100, the one-character string of byte 100 packs to
100, and `hash` on `"hi"` produces a digest. -/
theorem c10_trap_domain_witness :
    quadratic_division 5 (digit_return 5) = none ∧
      100 ≤ packString [104, 105] ∧ 100 ≤ packString [100] ∧
      ∃ out, hash [104, 105] = some out :=
  ⟨(c10_trap_domain.1 5).mpr (by decide),
    c10_trap_domain.2.1 [104, 105] (by decide) (by decide),
    c10_trap_domain.2.2.1 100 (by decide) (by decide),
    c10_trap_domain.2.2.2 [104, 105] (by decide) (by decide)⟩

/-- Witness for the amended C2 at `num = 123456` (6 digits, divisible by
3: the chunks are 12, 34, 56 and reconstruct the number). -/
theorem c2_chunks_amended_witness :
    0 ≤ qd_c 123456 (digit_return 123456) ∧
      qd_c 123456 (digit_return 123456) <
        pow10ll (qd_div (digit_return 123456)) ∧
      0 ≤ qd_b 123456 (digit_return 123456) ∧
      qd_b 123456 (digit_return 123456) <
        pow10ll (qd_div (digit_return 123456)) ∧
      0 ≤ qd_a 123456 (digit_return 123456) ∧
      qd_a 123456 (digit_return 123456) <
        pow10ll (qd_div (digit_return 123456)) ∧
      ((3 : Int) ∣ digit_return 123456 →
        123456 = qd_a 123456 (digit_return 123456) *
            (pow10ll (qd_div (digit_return 123456)) *
              pow10ll (qd_div (digit_return 123456))) +
          qd_b 123456 (digit_return 123456) *
            pow10ll (qd_div (digit_return 123456)) +
          qd_c 123456 (digit_return 123456)) :=
  c2_chunks_amended 123456 (by decide)

/-- Witness for the amended C3 at the packed value of the string `"hi"`
(104105). -/
theorem c3_scrambler_range_witness :
    ∃ r : Int, quadratic_division 104105 (digit_return 104105) = some r ∧
      0 ≤ r ∧ r ≤ 999999999999 :=
  c3_scrambler_range 104105 (by decide) (by decide)

end HashC
